import Mathlib

/-!
# Verification of the riichi-mahjong engine (backend/core)

A shallow embedding of the Python sources `tiles.py`, `shanten.py`,
`player.py`, `wall.py`, `scorer.py`, `game_state.py` and `game_engine.py`,
together with theorems settling the specification claims about them.

Python lists are embedded as `List`, arrays of tile counts as functions
`Nat → Nat` updated with `Function.update`, fallible operations as
`Option`/`Except`, and the recursive shanten search is given explicit
fuel (with a fuel-sufficiency lemma replacing Python's implicit
termination argument).
-/

set_option maxHeartbeats 1000000
set_option maxRecDepth 100000

namespace Riichi

/-! ## Tiles (`tiles.py`) -/

/-- `Suit` from `tiles.py` (an `IntEnum`: MAN=1, PIN=2, SOU=3, HONOUR=4). -/
inductive Suit where
  | man
  | pin
  | sou
  | honour
deriving DecidableEq, Repr

/-- The numeric value of the `IntEnum` member. -/
def Suit.toNat : Suit → Nat
  | .man => 1
  | .pin => 2
  | .sou => 3
  | .honour => 4

/-- `Tile` from `tiles.py`: a suit, a value (1-9 for suits, 1-7 for
honours) and the red-five flag. -/
structure Tile where
  suit : Suit
  value : Nat
  isRed : Bool := false
deriving DecidableEq, Repr

/-- `Tile.__lt__`: order by suit, then value, then by the red flag. -/
def tileLt (a b : Tile) : Bool :=
  if a.suit ≠ b.suit then a.suit.toNat < b.suit.toNat
  else if a.value ≠ b.value then a.value < b.value
  else a.isRed && !b.isRed

/-- `Tile.is_honour`. -/
def Tile.isHonour (t : Tile) : Bool := t.suit = Suit.honour

/-- `Tile.is_terminal`. -/
def Tile.isTerminal (t : Tile) : Bool :=
  !t.isHonour && (t.value = 1 || t.value = 9)

/-- `Tile.is_yaochuu`: terminal or honour. -/
def Tile.isYaochuu (t : Tile) : Bool := t.isTerminal || t.isHonour

/-- A tile of the game: suited values 1-9, honour values 1-7. -/
def validTile (t : Tile) : Prop :=
  (t.suit ≠ Suit.honour → 1 ≤ t.value ∧ t.value ≤ 9) ∧
  (t.suit = Suit.honour → 1 ≤ t.value ∧ t.value ≤ 7)

instance : DecidablePred validTile := fun _ => by unfold validTile; infer_instance

/-- One suit's worth of tiles in `create_standard_deck`: for each rank
1-9, value 5 contributes one red copy and three black copies, the other
values four black copies. -/
def suitDeck (s : Suit) : List Tile :=
  (List.range 9).flatMap fun r =>
    let v := r + 1
    if v = 5 then
      Tile.mk s v true :: List.replicate 3 (Tile.mk s v false)
    else
      List.replicate 4 (Tile.mk s v false)

/-- `create_standard_deck` (with akadora, the default): 136 tiles. -/
def standardDeck : List Tile :=
  suitDeck .man ++ suitDeck .pin ++ suitDeck .sou ++
    ((List.range 7).flatMap fun h => List.replicate 4 (Tile.mk .honour (h + 1) false))

/-! ### Stable sorting (Python `list.sort` via `Tile.__lt__`) -/

/-- Insert a tile into a sorted list, after every tile it is not
strictly less than: this reproduces the stable order of Python's sort. -/
def sortInsert (x : Tile) : List Tile → List Tile
  | [] => [x]
  | y :: ys => if tileLt x y then x :: y :: ys else y :: sortInsert x ys

/-- `hand.sort()`: stable insertion sort by `Tile.__lt__`. -/
def sortTiles (l : List Tile) : List Tile :=
  l.foldr sortInsert []

theorem sortInsert_perm (x : Tile) (l : List Tile) :
    (sortInsert x l).Perm (x :: l) := by
  induction l with
  | nil => simp [sortInsert]
  | cons y ys ih =>
    by_cases h : tileLt x y
    · simp [sortInsert, h]
    · simp only [sortInsert, h, if_false]
      exact (List.Perm.cons y ih).trans (List.Perm.swap x y ys)

theorem sortTiles_perm (l : List Tile) : (sortTiles l).Perm l := by
  induction l with
  | nil => simp [sortTiles]
  | cons x xs ih =>
    exact (sortInsert_perm x (sortTiles xs)).trans (List.Perm.cons x ih)

/-- The order in which a sorted hand is arranged: `b` does not strictly
precede `a` under `Tile.__lt__`. -/
def tileLe (a b : Tile) : Prop := tileLt b a = false

/-- Sort key: red fives order before black copies of the same tile. -/
def tileRedKey (t : Tile) : Nat := if t.isRed then 0 else 1

/-- `Tile.__lt__` is the lexicographic order on (suit, value, red key). -/
theorem tileLt_iff_key (a b : Tile) : tileLt a b = true ↔
    (a.suit.toNat < b.suit.toNat ∨
      (a.suit.toNat = b.suit.toNat ∧
        (a.value < b.value ∨
          (a.value = b.value ∧ tileRedKey a < tileRedKey b)))) := by
  cases a with
  | mk sa va ra =>
    cases b with
    | mk sb vb rb =>
      cases sa <;> cases sb <;> cases ra <;> cases rb <;>
        simp [tileLt, Suit.toNat, tileRedKey] <;> omega

theorem tileLe_trans {a b c : Tile} (h1 : tileLe a b) (h2 : tileLe b c) :
    tileLe a c := by
  rw [tileLe, ← Bool.not_eq_true] at h1 h2 ⊢
  rw [tileLt_iff_key] at h1 h2 ⊢
  omega

theorem tileLe_of_lt {a b : Tile} (h : tileLt a b = true) : tileLe a b := by
  rw [tileLe, ← Bool.not_eq_true, tileLt_iff_key]
  rw [tileLt_iff_key] at h
  omega

theorem tileLe_of_not_lt {a b : Tile} (h : tileLt b a = false) : tileLe a b := h

theorem sortInsert_sorted (x : Tile) (l : List Tile)
    (h : l.Sorted tileLe) : (sortInsert x l).Sorted tileLe := by
  induction l with
  | nil => simp [sortInsert, List.Sorted]
  | cons y ys ih =>
    rcases List.sorted_cons.mp h with ⟨hy, hys⟩
    by_cases hlt : tileLt x y = true
    · simp only [sortInsert, hlt, if_true]
      refine List.sorted_cons.mpr ⟨?_, h⟩
      intro b hb
      rcases List.mem_cons.mp hb with hb | hb
      · exact hb ▸ tileLe_of_lt hlt
      · exact tileLe_trans (tileLe_of_lt hlt) (hy b hb)
    · rw [Bool.not_eq_true] at hlt
      simp only [sortInsert, hlt, if_false, Bool.false_eq_true]
      refine List.sorted_cons.mpr ⟨?_, ih hys⟩
      intro b hb
      rcases List.mem_cons.mp ((sortInsert_perm x ys).mem_iff.mp hb) with hb | hb
      · exact hb ▸ tileLe_of_not_lt hlt
      · exact hy b hb

theorem sortTiles_sorted (l : List Tile) : (sortTiles l).Sorted tileLe := by
  induction l with
  | nil => simp [sortTiles, List.Sorted]
  | cons x xs ih => exact sortInsert_sorted x (sortTiles xs) ih

/-! ## Shanten calculator (`shanten.py`)

Tile counts are a frequency table indexed 0-33 (0-8 man, 9-17 pin,
18-26 sou, 27-33 honours), embedded as a function `Nat → Nat`. -/

/-- A frequency table of tile counts, indices 0-33. -/
abbrev Counts := Nat → Nat

/-- Decrement the count at index `i` by one. -/
def dec1 (c : Counts) (i : Nat) : Counts := Function.update c i (c i - 1)

/-- Remove a triplet at index `i` (`counts[index] -= 3`). -/
def dec3 (c : Counts) (i : Nat) : Counts := Function.update c i (c i - 3)

/-- Remove a run `i, i+1, i+2` (one tile from each index). -/
def decRun (c : Counts) (i : Nat) : Counts := dec1 (dec1 (dec1 c i) (i + 1)) (i + 2)

/-- The array index a tile maps to in `_to_frequency_table`
(`-1` stands for the unassigned sentinel). -/
def tileIndex (t : Tile) : Int :=
  match t.suit with
  | .man => (t.value : Int) - 1
  | .pin => 9 + ((t.value : Int) - 1)
  | .sou => 18 + ((t.value : Int) - 1)
  | .honour => 27 + ((t.value : Int) - 1)

/-- `ShantenCalculator._to_frequency_table`: count tiles into the 34-slot
table, ignoring any index outside `[0, 34)`. -/
def toFreqTable (tiles : List Tile) : Counts :=
  tiles.foldl
    (fun cs t =>
      if 0 ≤ tileIndex t ∧ tileIndex t < 34 then
        Function.update cs (tileIndex t).toNat (cs (tileIndex t).toNat + 1)
      else cs)
    (fun _ => 0)

/-- Total number of tiles in the frequency table. -/
def sumc (c : Counts) : Nat := ∑ i ∈ Finset.range 34, c i

/-- The pair-removal loop of `_calculate_final_standard_shanten`:
starting at index `i` with `n` indices to go, count indices holding at
least two tiles and remove two from each.  Returns the pair count and
the remaining table. -/
def scanPairs : Counts → Nat → Nat → Nat × Counts
  | c, _, 0 => (0, c)
  | c, i, n + 1 =>
    if 2 ≤ c i then
      let r := scanPairs (Function.update c i (c i - 2)) (i + 1) n
      (r.1 + 1, r.2)
    else scanPairs c (i + 1) n

/-- The taatsu-counting loop of `_calculate_final_standard_shanten`:
scan the number indices, greedily consuming a neighbour pair
(`i, i+1`) or else a kanchan (`i, i+2`) at each occupied index. -/
def scanTaatsu : Counts → Nat → Nat → Nat
  | _, _, 0 => 0
  | c, i, n + 1 =>
    if 0 < c i then
      if i % 9 < 8 ∧ 0 < c (i + 1) then
        1 + scanTaatsu (dec1 (dec1 c i) (i + 1)) (i + 1) n
      else if i % 9 < 7 ∧ 0 < c (i + 2) then
        1 + scanTaatsu (dec1 (dec1 c i) (i + 2)) (i + 1) n
      else scanTaatsu c (i + 1) n
    else scanTaatsu c (i + 1) n

/-- `ShantenCalculator._calculate_final_standard_shanten`: score the
leftover tiles after the recursive group extraction.  One pair (if any)
is the head worth −1, every other pair and every taatsu is worth −1,
with no cap on their number. -/
def calcFinal (c : Counts) : Int :=
  let p := scanPairs c 0 34
  let t := scanTaatsu p.2 0 27
  if 0 < p.1 then
    (8 : Int) - ((t : Int) + ((p.1 : Int) - 1)) - 1
  else
    (8 : Int) - (t : Int)

/-- `ShantenCalculator._recurse_standard`, with explicit fuel: skip
empty indices, and at an occupied index take the minimum over removing
a triplet, removing a run, and skipping the index. -/
def recurseStd : Nat → Counts → Nat → Int
  | 0, _, _ => 99
  | fuel + 1, c, index =>
    if 34 ≤ index then calcFinal c
    else if c index = 0 then recurseStd fuel c (index + 1)
    else
      let b0 : Int := 99
      let b1 : Int :=
        if 3 ≤ c index then
          min b0 (recurseStd fuel (dec3 c index) index - 2)
        else b0
      let b2 : Int :=
        if index < 27 ∧ index % 9 < 7 ∧ 1 ≤ c index ∧
            1 ≤ c (index + 1) ∧ 1 ≤ c (index + 2) then
          min b1 (recurseStd fuel (decRun c index) index - 2)
        else b1
      min b2 (recurseStd fuel c (index + 1))

/-- Fuel sufficient for `recurseStd` from table `c` at index 0. -/
def stdFuel (c : Counts) : Nat := 3 * sumc c + 35

/-- `ShantenCalculator._get_standard_shanten`. -/
def getStandardShanten (c : Counts) : Int := recurseStd (stdFuel c) c 0

/-- `ShantenCalculator._get_chitoitsu_shanten`:
`6 - pairs + max(0, 7 - unique)`. -/
def getChitoitsuShanten (c : Counts) : Int :=
  let pairs := ((Finset.range 34).filter (fun i => 2 ≤ c i)).card
  let unique := ((Finset.range 34).filter (fun i => 1 ≤ c i)).card
  6 - (pairs : Int) + max 0 (7 - (unique : Int))

/-- The indices of terminals and honours (`yaochuu_indices`). -/
def yaochuuIndices : List Nat := [0, 8, 9, 17, 18, 26, 27, 28, 29, 30, 31, 32, 33]

/-- `ShantenCalculator._get_kokushi_shanten`:
`13 - unique - (1 if has_pair else 0)`. -/
def getKokushiShanten (c : Counts) : Int :=
  let unique := yaochuuIndices.countP (fun i => decide (0 < c i))
  let hasPair := yaochuuIndices.any (fun i => decide (2 ≤ c i))
  13 - (unique : Int) - (if hasPair then 1 else 0)

/-- `ShantenCalculator.calculate_shanten`: minimum of the three
pattern shantens over the frequency table of the hand. -/
def calculateShanten (tiles : List Tile) : Int :=
  let c := toFreqTable tiles
  min (min (getStandardShanten c) (getChitoitsuShanten c)) (getKokushiShanten c)

/-- The canonical (non-red) tile of frequency-table index `i`. -/
def indexTile (i : Nat) : Tile :=
  if i < 9 then ⟨.man, i + 1, false⟩
  else if i < 18 then ⟨.pin, i - 9 + 1, false⟩
  else if i < 27 then ⟨.sou, i - 18 + 1, false⟩
  else ⟨.honour, i - 27 + 1, false⟩

/-- The 34 distinct tile types, in frequency-table order. -/
def tileTypes : List Tile := (List.range 34).map indexTile

/-- Modelled from the spec: `ShantenCalculator.get_waits` is called from
`game_engine.py`, `game_state.py` and `ui.py` but its definition is
absent from the sources; the spec defines it as: for each of the 34
possible tile types, hypothetically add one copy to the hand and keep
the type exactly when the resulting distance is −1. -/
def getWaits (hand : List Tile) : List Tile :=
  tileTypes.filter (fun t => calculateShanten (hand ++ [t]) = -1)

/-! ## Fuel sufficiency and basic bounds for the standard search -/

/-- Termination measure of `_recurse_standard`: every recursive call
strictly decreases it. -/
def stdMeasure (c : Counts) (i : Nat) : Nat := 3 * sumc c + (34 - i)

theorem sumc_update_add (c : Counts) {i : Nat} (hi : i < 34) (v : Nat) :
    sumc (Function.update c i v) + c i = sumc c + v := by
  unfold sumc
  have hmem : i ∈ Finset.range 34 := Finset.mem_range.mpr hi
  rw [Finset.sum_update_of_mem hmem,
    ← Finset.sum_erase_add (Finset.range 34) c hmem, Finset.sdiff_singleton_eq_erase]
  ring

theorem sumc_dec3 (c : Counts) {i : Nat} (hi : i < 34) (h3 : 3 ≤ c i) :
    sumc (dec3 c i) + 3 = sumc c := by
  have := sumc_update_add c hi (c i - 3)
  unfold dec3
  omega

theorem sumc_dec1 (c : Counts) {i : Nat} (hi : i < 34) (h1 : 1 ≤ c i) :
    sumc (dec1 c i) + 1 = sumc c := by
  have := sumc_update_add c hi (c i - 1)
  unfold dec1
  omega

theorem dec1_apply_ne (c : Counts) {i j : Nat} (h : j ≠ i) :
    dec1 c i j = c j := Function.update_noteq h _ c

theorem sumc_decRun (c : Counts) {i : Nat} (hi : i < 27)
    (h0 : 1 ≤ c i) (h1 : 1 ≤ c (i + 1)) (h2 : 1 ≤ c (i + 2)) :
    sumc (decRun c i) + 3 = sumc c := by
  unfold decRun
  have e0 := sumc_dec1 c (by omega : i < 34) h0
  have m1 : dec1 c i (i + 1) = c (i + 1) := dec1_apply_ne c (by omega)
  have e1 := sumc_dec1 (dec1 c i) (by omega : i + 1 < 34) (by omega)
  have m2a : dec1 (dec1 c i) (i + 1) (i + 2) = dec1 c i (i + 2) :=
    dec1_apply_ne _ (by omega)
  have m2b : dec1 c i (i + 2) = c (i + 2) := dec1_apply_ne c (by omega)
  have e2 := sumc_dec1 (dec1 (dec1 c i) (i + 1)) (by omega : i + 2 < 34)
    (by rw [m2a, m2b]; omega)
  omega

/-- One-step unfolding of `_recurse_standard` at positive fuel. -/
theorem recurseStd_eq (f : Nat) (c : Counts) (i : Nat) :
    recurseStd (f + 1) c i =
      if 34 ≤ i then calcFinal c
      else if c i = 0 then recurseStd f c (i + 1)
      else
        min
          (if i < 27 ∧ i % 9 < 7 ∧ 1 ≤ c i ∧ 1 ≤ c (i + 1) ∧ 1 ≤ c (i + 2) then
            min (if 3 ≤ c i then min 99 (recurseStd f (dec3 c i) i - 2) else 99)
              (recurseStd f (decRun c i) i - 2)
          else if 3 ≤ c i then min 99 (recurseStd f (dec3 c i) i - 2) else 99)
          (recurseStd f c (i + 1)) := rfl

theorem recurseStd_succ :
    ∀ (f : Nat) (c : Counts) (i : Nat), stdMeasure c i < f + 1 →
      recurseStd (f + 1) c i = recurseStd (f + 2) c i := by
  intro f
  induction f with
  | zero =>
    intro c i hm
    unfold stdMeasure at hm
    have h34 : 34 ≤ i := by omega
    rw [recurseStd_eq, recurseStd_eq, if_pos h34, if_pos h34]
  | succ f ih =>
    intro c i hm
    have L :
        recurseStd (f + 1 + 1) c i =
          if 34 ≤ i then calcFinal c
          else if c i = 0 then recurseStd (f + 1) c (i + 1)
          else
            min
              (if i < 27 ∧ i % 9 < 7 ∧ 1 ≤ c i ∧ 1 ≤ c (i + 1) ∧ 1 ≤ c (i + 2) then
                min (if 3 ≤ c i then min 99 (recurseStd (f + 1) (dec3 c i) i - 2) else 99)
                  (recurseStd (f + 1) (decRun c i) i - 2)
              else if 3 ≤ c i then min 99 (recurseStd (f + 1) (dec3 c i) i - 2) else 99)
              (recurseStd (f + 1) c (i + 1)) := recurseStd_eq (f + 1) c i
    have R :
        recurseStd (f + 1 + 2) c i =
          if 34 ≤ i then calcFinal c
          else if c i = 0 then recurseStd (f + 2) c (i + 1)
          else
            min
              (if i < 27 ∧ i % 9 < 7 ∧ 1 ≤ c i ∧ 1 ≤ c (i + 1) ∧ 1 ≤ c (i + 2) then
                min (if 3 ≤ c i then min 99 (recurseStd (f + 2) (dec3 c i) i - 2) else 99)
                  (recurseStd (f + 2) (decRun c i) i - 2)
              else if 3 ≤ c i then min 99 (recurseStd (f + 2) (dec3 c i) i - 2) else 99)
              (recurseStd (f + 2) c (i + 1)) := recurseStd_eq (f + 2) c i
    rw [L, R]
    by_cases h34 : 34 ≤ i
    · rw [if_pos h34, if_pos h34]
    · push_neg at h34
      rw [if_neg (by omega : ¬ 34 ≤ i), if_neg (by omega : ¬ 34 ≤ i)]
      have hmi : stdMeasure c (i + 1) < f + 1 := by
        unfold stdMeasure at hm ⊢; omega
      have eskip : recurseStd (f + 1) c (i + 1) = recurseStd (f + 2) c (i + 1) :=
        ih c (i + 1) hmi
      by_cases hz : c i = 0
      · rw [if_pos hz, if_pos hz]
        exact eskip
      · rw [if_neg hz, if_neg hz, eskip]
        have etrip : 3 ≤ c i →
            recurseStd (f + 1) (dec3 c i) i = recurseStd (f + 2) (dec3 c i) i := by
          intro h3
          apply ih
          have := sumc_dec3 c h34 h3
          unfold stdMeasure at hm ⊢; omega
        have erun : i < 27 → i % 9 < 7 → 1 ≤ c i → 1 ≤ c (i + 1) → 1 ≤ c (i + 2) →
            recurseStd (f + 1) (decRun c i) i = recurseStd (f + 2) (decRun c i) i := by
          intro h27 _ ha hb hc
          apply ih
          have := sumc_decRun c h27 ha hb hc
          unfold stdMeasure at hm ⊢; omega
        by_cases hr : i < 27 ∧ i % 9 < 7 ∧ 1 ≤ c i ∧ 1 ≤ c (i + 1) ∧ 1 ≤ c (i + 2)
        · rw [if_pos hr, if_pos hr, erun hr.1 hr.2.1 hr.2.2.1 hr.2.2.2.1 hr.2.2.2.2]
          by_cases h3 : 3 ≤ c i
          · rw [if_pos h3, if_pos h3, etrip h3]
          · rw [if_neg h3, if_neg h3]
        · rw [if_neg hr, if_neg hr]
          by_cases h3 : 3 ≤ c i
          · rw [if_pos h3, if_pos h3, etrip h3]
          · rw [if_neg h3, if_neg h3]

theorem recurseStd_fuel_above (c : Counts) (i : Nat) :
    ∀ d, recurseStd (stdMeasure c i + 1) c i
      = recurseStd (stdMeasure c i + 1 + d) c i := by
  intro d
  induction d with
  | zero => rfl
  | succ d ih =>
    rw [ih]
    have h1 : stdMeasure c i + 1 + d = stdMeasure c i + d + 1 := by omega
    have h2 : stdMeasure c i + 1 + (d + 1) = stdMeasure c i + d + 2 := by omega
    rw [h1, h2]
    exact recurseStd_succ (stdMeasure c i + d) c i (by omega)

theorem recurseStd_fuel {c : Counts} {i f g : Nat}
    (hf : stdMeasure c i < f) (hg : stdMeasure c i < g) :
    recurseStd f c i = recurseStd g c i := by
  have ef : f = stdMeasure c i + 1 + (f - stdMeasure c i - 1) := by omega
  have eg : g = stdMeasure c i + 1 + (g - stdMeasure c i - 1) := by omega
  rw [ef, eg, ← recurseStd_fuel_above c i (f - stdMeasure c i - 1),
    ← recurseStd_fuel_above c i (g - stdMeasure c i - 1)]

theorem single_le_sumc (c : Counts) {i : Nat} (hi : i < 34) : c i ≤ sumc c :=
  Finset.single_le_sum (f := c) (fun _ _ => Nat.zero_le _) (Finset.mem_range.mpr hi)

theorem recurseStd_base {c : Counts} {i f : Nat} (h34 : 34 ≤ i) (hf : 0 < f) :
    recurseStd f c i = calcFinal c := by
  obtain ⟨f', rfl⟩ : ∃ f', f = f' + 1 := ⟨f - 1, by omega⟩
  rw [recurseStd_eq, if_pos h34]

theorem recurseStd_le_skip {c : Counts} {i f : Nat} (h34 : i < 34)
    (hf : stdMeasure c i < f) :
    recurseStd f c i ≤ recurseStd f c (i + 1) := by
  obtain ⟨f', rfl⟩ : ∃ f', f = f' + 1 := ⟨f - 1, by omega⟩
  have hstep : stdMeasure c (i + 1) < f' := by unfold stdMeasure at *; omega
  have efuel : recurseStd f' c (i + 1) = recurseStd (f' + 1) c (i + 1) :=
    recurseStd_fuel (by omega) (by omega)
  rw [recurseStd_eq, if_neg (by omega : ¬ 34 ≤ i)]
  by_cases hz : c i = 0
  · rw [if_pos hz, efuel]
  · rw [if_neg hz, efuel]
    exact min_le_right _ _

theorem recurseStd_le_trip {c : Counts} {i f : Nat} (h34 : i < 34)
    (h3 : 3 ≤ c i) (hf : stdMeasure c i < f) :
    recurseStd f c i ≤ recurseStd f (dec3 c i) i - 2 := by
  obtain ⟨f', rfl⟩ : ∃ f', f = f' + 1 := ⟨f - 1, by omega⟩
  have hsum := sumc_dec3 c h34 h3
  have hstep : stdMeasure (dec3 c i) i < f' := by unfold stdMeasure at *; omega
  have efuel : recurseStd f' (dec3 c i) i = recurseStd (f' + 1) (dec3 c i) i :=
    recurseStd_fuel (by omega) (by omega)
  rw [recurseStd_eq, if_neg (by omega : ¬ 34 ≤ i), if_neg (by omega : ¬ c i = 0)]
  refine le_trans (min_le_left _ _) ?_
  rw [← efuel]
  by_cases hr : i < 27 ∧ i % 9 < 7 ∧ 1 ≤ c i ∧ 1 ≤ c (i + 1) ∧ 1 ≤ c (i + 2)
  · rw [if_pos hr]
    exact le_trans (min_le_left _ _) (by rw [if_pos h3]; exact min_le_right _ _)
  · rw [if_neg hr, if_pos h3]
    exact min_le_right _ _

theorem recurseStd_le_run {c : Counts} {i f : Nat}
    (hr : i < 27 ∧ i % 9 < 7 ∧ 1 ≤ c i ∧ 1 ≤ c (i + 1) ∧ 1 ≤ c (i + 2))
    (hf : stdMeasure c i < f) :
    recurseStd f c i ≤ recurseStd f (decRun c i) i - 2 := by
  obtain ⟨f', rfl⟩ : ∃ f', f = f' + 1 := ⟨f - 1, by omega⟩
  have hsum := sumc_decRun c hr.1 hr.2.2.1 hr.2.2.2.1 hr.2.2.2.2
  have hstep : stdMeasure (decRun c i) i < f' := by unfold stdMeasure at *; omega
  have efuel : recurseStd f' (decRun c i) i = recurseStd (f' + 1) (decRun c i) i :=
    recurseStd_fuel (by omega) (by omega)
  rw [recurseStd_eq, if_neg (by omega : ¬ 34 ≤ i),
    if_neg (by omega : ¬ c i = 0), if_pos hr]
  refine le_trans (min_le_left _ _) ?_
  rw [← efuel]
  exact min_le_right _ _

theorem recurseStd_le_calcFinal :
    ∀ (k : Nat) {c : Counts} {i f : Nat}, 34 - i ≤ k → stdMeasure c i < f →
      recurseStd f c i ≤ calcFinal c := by
  intro k
  induction k with
  | zero =>
    intro c i f hk hf
    exact le_of_eq (recurseStd_base (by omega) (by omega))
  | succ k ih =>
    intro c i f hk hf
    by_cases h34 : 34 ≤ i
    · exact le_of_eq (recurseStd_base h34 (by omega))
    · push_neg at h34
      refine le_trans (recurseStd_le_skip h34 hf) (ih (by omega) ?_)
      unfold stdMeasure at *; omega

/-! ### Lower bound: the standard search never goes below the
distance forced by the number of tiles -/

theorem scanPairs_sum :
    ∀ (n : Nat) (c : Counts) (i : Nat), i + n ≤ 34 →
      2 * (scanPairs c i n).1 + sumc (scanPairs c i n).2 = sumc c := by
  intro n
  induction n with
  | zero => intro c i _; simp [scanPairs]
  | succ n ih =>
    intro c i hn
    by_cases h2 : 2 ≤ c i
    · have hi : i < 34 := by omega
      have hup := sumc_update_add c hi (c i - 2)
      simp only [scanPairs, if_pos h2]
      have := ih (Function.update c i (c i - 2)) (i + 1) (by omega)
      omega
    · simp only [scanPairs, if_neg h2]
      exact ih c (i + 1) (by omega)

theorem scanTaatsu_le :
    ∀ (n : Nat) (c : Counts) (i : Nat), i + n ≤ 27 →
      2 * scanTaatsu c i n ≤ sumc c := by
  intro n
  induction n with
  | zero => intro c i _; simp [scanTaatsu]
  | succ n ih =>
    intro c i hn
    by_cases hz : 0 < c i
    · by_cases ht1 : i % 9 < 8 ∧ 0 < c (i + 1)
      · simp only [scanTaatsu, if_pos hz, if_pos ht1]
        have e1 := sumc_dec1 c (by omega : i < 34) (by omega)
        have m1 : dec1 c i (i + 1) = c (i + 1) := dec1_apply_ne c (by omega)
        have e2 := sumc_dec1 (dec1 c i) (by omega : i + 1 < 34) (by omega)
        have := ih (dec1 (dec1 c i) (i + 1)) (i + 1) (by omega)
        omega
      · by_cases ht2 : i % 9 < 7 ∧ 0 < c (i + 2)
        · simp only [scanTaatsu, if_pos hz, if_neg ht1, if_pos ht2]
          have e1 := sumc_dec1 c (by omega : i < 34) (by omega)
          have m1 : dec1 c i (i + 2) = c (i + 2) := dec1_apply_ne c (by omega)
          have e2 := sumc_dec1 (dec1 c i) (by omega : i + 2 < 34) (by omega)
          have := ih (dec1 (dec1 c i) (i + 2)) (i + 1) (by omega)
          omega
        · simp only [scanTaatsu, if_pos hz, if_neg ht1, if_neg ht2]
          exact ih c (i + 1) (by omega)
    · simp only [scanTaatsu, if_neg hz]
      exact ih c (i + 1) (by omega)

theorem calcFinal_ge (c : Counts) :
    (8 : Int) - ((sumc c / 2 : Nat) : Int) ≤ calcFinal c := by
  unfold calcFinal
  have hp := scanPairs_sum 34 c 0 (by omega)
  have ht := scanTaatsu_le 27 (scanPairs c 0 34).2 0 (by omega)
  by_cases h : 0 < (scanPairs c 0 34).1
  · rw [if_pos h]
    push_cast
    omega
  · rw [if_neg h]
    push_cast
    omega

/-- The least value `_recurse_standard` can return from a table of `S`
tiles (8 = empty baseline, −1 at fourteen tiles). -/
def stdLowerBound (S : Nat) : Int :=
  [8, 8, 7, 6, 6, 5, 4, 4, 3, 2, 2, 1, 0, 0, -1].getD S 99

theorem stdLowerBound_base : ∀ S < 15, stdLowerBound S ≤ 8 - ((S / 2 : Nat) : Int) := by
  decide

theorem stdLowerBound_step : ∀ S < 15, 3 ≤ S →
    stdLowerBound S ≤ stdLowerBound (S - 3) - 2 := by
  decide

theorem stdLowerBound_le8 : ∀ S < 15, stdLowerBound S ≤ 8 := by decide

theorem recurseStd_ge :
    ∀ (f : Nat) (c : Counts) (i : Nat), stdMeasure c i < f → sumc c ≤ 14 →
      stdLowerBound (sumc c) ≤ recurseStd f c i := by
  intro f
  induction f with
  | zero => intro c i hm; omega
  | succ f ih =>
    intro c i hm hs
    have hb8 : stdLowerBound (sumc c) ≤ 8 := stdLowerBound_le8 _ (by omega)
    rw [recurseStd_eq]
    by_cases h34 : 34 ≤ i
    · rw [if_pos h34]
      refine le_trans ?_ (calcFinal_ge c)
      have := stdLowerBound_base (sumc c) (by omega)
      have hdiv : (sumc c / 2 : Nat) ≤ 7 := by omega
      push_cast at this ⊢
      omega
    · rw [if_neg h34]
      have hskip : stdLowerBound (sumc c) ≤ recurseStd f c (i + 1) :=
        ih c (i + 1) (by unfold stdMeasure at *; omega) hs
      by_cases hz : c i = 0
      · rw [if_pos hz]; exact hskip
      · rw [if_neg hz]
        refine le_min ?_ hskip
        have htrip : 3 ≤ c i →
            stdLowerBound (sumc c) ≤ recurseStd f (dec3 c i) i - 2 := by
          intro h3
          have hsum := sumc_dec3 c (by omega) h3
          have hrec := ih (dec3 c i) i (by unfold stdMeasure at *; omega) (by omega)
          have hstep := stdLowerBound_step (sumc c) (by omega)
            (by have := single_le_sumc c (show i < 34 by omega); omega)
          rw [show sumc (dec3 c i) = sumc c - 3 from by omega] at hrec
          omega
        by_cases hr : i < 27 ∧ i % 9 < 7 ∧ 1 ≤ c i ∧ 1 ≤ c (i + 1) ∧ 1 ≤ c (i + 2)
        · rw [if_pos hr]
          refine le_min ?_ ?_
          · by_cases h3 : 3 ≤ c i
            · rw [if_pos h3]
              exact le_min (by omega) (htrip h3)
            · rw [if_neg h3]; omega
          · have hsum := sumc_decRun c hr.1 hr.2.2.1 hr.2.2.2.1 hr.2.2.2.2
            have hrec := ih (decRun c i) i (by unfold stdMeasure at *; omega) (by omega)
            have hstep := stdLowerBound_step (sumc c) (by omega) (by omega)
            rw [show sumc (decRun c i) = sumc c - 3 from by omega] at hrec
            omega
        · rw [if_neg hr]
          by_cases h3 : 3 ≤ c i
          · rw [if_pos h3]
            exact le_min (by omega) (htrip h3)
          · rw [if_neg h3]; omega

theorem getStandardShanten_ge {c : Counts} (hs : sumc c ≤ 14) :
    stdLowerBound (sumc c) ≤ getStandardShanten c := by
  unfold getStandardShanten stdFuel
  exact recurseStd_ge _ c 0 (by unfold stdMeasure; omega) hs

/-! ## The spec's winning grammars

These definitions follow the specification's wording ("four groups —
each a triplet or a same-suit consecutive run — plus one pair, seven
distinct pairs, or the thirteen-orphans shape"), to be compared with
what `calculate_shanten` computes. -/

/-- A completed group: a triplet at index `i`, or a run `i, i+1, i+2`. -/
inductive Grp where
  | trip (i : Nat)
  | run (i : Nat)
deriving DecidableEq, Repr

/-- The lowest tile index of a group. -/
def grpStart : Grp → Nat
  | .trip i => i
  | .run i => i

/-- A group drawn from the 34 tile types; a run stays inside one
numbered suit. -/
def grpValid : Grp → Prop
  | .trip i => i < 34
  | .run i => i < 27 ∧ i % 9 < 7

/-- The tiles a group occupies, as a frequency table. -/
def grpCounts : Grp → Counts
  | .trip i => fun j => if j = i then 3 else 0
  | .run i => fun j => if j = i ∨ j = i + 1 ∨ j = i + 2 then 1 else 0

/-- A pair of the tile type at index `p`, as a frequency table. -/
def pairCounts (p : Nat) : Counts := fun j => if j = p then 2 else 0

/-- Pointwise sum of two frequency tables. -/
def addCounts (a b : Counts) : Counts := fun j => a j + b j

/-- The tiles occupied by a list of groups on top of a base table. -/
def sumGrps (gs : List Grp) (base : Counts) : Counts :=
  gs.foldr (fun g acc => addCounts (grpCounts g) acc) base

/-- The spec's standard winning grammar: four valid groups plus one
pair make up the whole multiset. -/
def specStandardWin (c : Counts) : Prop :=
  ∃ p gs, p < 34 ∧ gs.length = 4 ∧ (∀ g ∈ gs, grpValid g) ∧
    c = sumGrps gs (pairCounts p)

/-- The spec's seven-pairs winning grammar: seven distinct tile types,
two of each, and nothing else. -/
def specSevenPairs (c : Counts) : Prop :=
  (∀ i < 34, c i = 0 ∨ c i = 2) ∧
    ((Finset.range 34).filter (fun i => c i = 2)).card = 7

/-- The spec's thirteen-orphans winning grammar: every terminal and
honour type present, nothing else, fourteen tiles in total. -/
def specKokushi (c : Counts) : Prop :=
  (∀ i ∈ yaochuuIndices, 1 ≤ c i) ∧
    (∀ i < 34, i ∉ yaochuuIndices → c i = 0) ∧ sumc c = 14

/-- A complete winning hand under at least one of the three grammars. -/
def specWinningHand (c : Counts) : Prop :=
  specStandardWin c ∨ specSevenPairs c ∨ specKokushi c

theorem sumGrps_apply (gs : List Grp) (base : Counts) (j : Nat) :
    sumGrps gs base j = base j + (gs.map (fun g => grpCounts g j)).sum := by
  induction gs with
  | nil => simp [sumGrps]
  | cons g gs ih =>
    simp only [sumGrps, List.foldr_cons, List.map_cons, List.sum_cons]
    show grpCounts g j + sumGrps gs base j = _
    rw [ih]
    ring

theorem sumGrps_perm {gs gs' : List Grp} (h : gs.Perm gs') (base : Counts) :
    sumGrps gs base = sumGrps gs' base := by
  funext j
  rw [sumGrps_apply, sumGrps_apply, (h.map _).sum_eq]

theorem sumGrps_cons (g : Grp) (gs : List Grp) (base : Counts) :
    sumGrps (g :: gs) base = addCounts (grpCounts g) (sumGrps gs base) := rfl

theorem decRun_apply (c : Counts) (i j : Nat) :
    decRun c i j = if j = i ∨ j = i + 1 ∨ j = i + 2 then c j - 1 else c j := by
  simp only [decRun, dec1, Function.update_apply]
  by_cases h2 : j = i + 2 <;> by_cases h1 : j = i + 1 <;> by_cases h0 : j = i <;>
    simp_all <;> omega

theorem sumc_addCounts (a b : Counts) :
    sumc (addCounts a b) = sumc a + sumc b := by
  unfold sumc addCounts
  rw [Finset.sum_add_distrib]

theorem sumc_grpCounts {g : Grp} (hv : grpValid g) : sumc (grpCounts g) = 3 := by
  cases g with
  | trip i =>
    unfold grpValid at hv
    unfold sumc grpCounts
    rw [Finset.sum_ite_eq' (Finset.range 34) i (fun _ => 3)]
    simp [Finset.mem_range.mpr hv]
  | run i =>
    rcases hv with ⟨h27, _⟩
    unfold sumc grpCounts
    have split : ∀ j, (if j = i ∨ j = i + 1 ∨ j = i + 2 then (1 : Nat) else 0) =
        (if j = i then 1 else 0) + (if j = i + 1 then 1 else 0) +
          (if j = i + 2 then 1 else 0) := by
      intro j
      by_cases a : j = i <;> by_cases b : j = i + 1 <;> by_cases c : j = i + 2 <;>
        simp_all <;> omega
    simp only [split]
    rw [Finset.sum_add_distrib, Finset.sum_add_distrib,
      Finset.sum_ite_eq' (Finset.range 34) i (fun _ => 1),
      Finset.sum_ite_eq' (Finset.range 34) (i + 1) (fun _ => 1),
      Finset.sum_ite_eq' (Finset.range 34) (i + 2) (fun _ => 1)]
    simp only [Finset.mem_range]
    rw [if_pos (by omega), if_pos (by omega), if_pos (by omega)]

theorem sumc_sumGrps {gs : List Grp} (hv : ∀ g ∈ gs, grpValid g) (base : Counts) :
    sumc (sumGrps gs base) = 3 * gs.length + sumc base := by
  induction gs with
  | nil => simp [sumGrps]
  | cons g gs ih =>
    rw [sumGrps_cons, sumc_addCounts, sumc_grpCounts (hv g (by simp)),
      ih (fun g' h' => hv g' (by simp [h']))]
    simp only [List.length_cons]
    ring

theorem sumc_pairCounts {p : Nat} (hp : p < 34) : sumc (pairCounts p) = 2 := by
  unfold sumc pairCounts
  rw [Finset.sum_ite_eq' (Finset.range 34) p (fun _ => 2)]
  simp [Finset.mem_range.mpr hp]

/-- The recursive search reaches every decomposition: on a table made
of `base` plus groups all starting at or after `i`, the search from `i`
is bounded by scoring `base` alone, minus two per group. -/
theorem recurseStd_le_decomp :
    ∀ (n : Nat) (gs : List Grp) (base : Counts) (i f : Nat),
      (∀ g ∈ gs, grpValid g ∧ i ≤ grpStart g) →
      gs.length + (34 - i) ≤ n →
      stdMeasure (sumGrps gs base) i < f →
      recurseStd f (sumGrps gs base) i ≤ calcFinal base - 2 * gs.length := by
  intro n
  induction n with
  | zero =>
    intro gs base i f hgs hn hf
    have hlen : gs.length = 0 := by omega
    have hempty : gs = [] := List.length_eq_zero.mp hlen
    subst hempty
    have h34 : 34 ≤ i := by omega
    simp only [sumGrps, List.foldr_nil, List.length_nil, Nat.cast_zero, mul_zero,
      sub_zero]
    exact le_of_eq (recurseStd_base h34 (by omega))
  | succ n ih =>
    intro gs base i f hgs hn hf
    by_cases hex : ∃ g ∈ gs, grpStart g = i
    · obtain ⟨g, hg, hstart⟩ := hex
      have hperm : gs.Perm (g :: gs.erase g) := List.perm_cons_erase hg
      have hlen' : (gs.erase g).length = gs.length - 1 := List.length_erase_of_mem hg
      have hlpos : 1 ≤ gs.length := List.length_pos.mpr (by rintro rfl; simp at hg)
      have hrw : sumGrps gs base = addCounts (grpCounts g)
          (sumGrps (gs.erase g) base) := by
        rw [sumGrps_perm hperm, sumGrps_cons]
      have herase : ∀ g' ∈ gs.erase g, grpValid g' ∧ i ≤ grpStart g' :=
        fun g' h' => hgs g' (List.mem_of_mem_erase h')
      have hvg : grpValid g := (hgs g hg).1
      have hmeasure : gs.length - 1 + (34 - i) ≤ n := by omega
      -- sum of the reduced table
      have hsval : sumc (sumGrps gs base) =
          3 + sumc (sumGrps (gs.erase g) base) := by
        rw [hrw, sumc_addCounts, sumc_grpCounts hvg]
      cases g with
      | trip j =>
        have hj : j = i := hstart
        subst hj
        have hji : j < 34 := hvg
        set c := sumGrps gs base with hc
        set c' := sumGrps (gs.erase (Grp.trip j)) base with hc'
        have happ : ∀ k, c k = grpCounts (Grp.trip j) k + c' k := by
          intro k; rw [hrw]; rfl
        have h3 : 3 ≤ c j := by
          rw [happ j]; simp [grpCounts]
        have hd : dec3 c j = c' := by
          funext k
          unfold dec3
          rw [Function.update_apply]
          by_cases hk : k = j
          · subst hk; rw [if_pos rfl, happ k]; simp [grpCounts]
          · rw [if_neg hk, happ k]; simp [grpCounts, hk]
        have hstepf : stdMeasure c' j < f := by
          unfold stdMeasure at hf ⊢
          have : sumc c = 3 + sumc c' := hsval
          omega
        have := recurseStd_le_trip hji h3 hf
        rw [hd] at this
        have hihres := ih (gs.erase (Grp.trip j)) base j f herase
          (by omega) hstepf
        rw [← hc'] at hihres
        have hcast : (2 : Int) * ((gs.erase (Grp.trip j)).length : Int) =
            2 * (gs.length : Int) - 2 := by
          rw [hlen']; push_cast [hlpos]; omega
        have efuel : recurseStd f c j ≤ calcFinal base - 2 * (gs.erase (Grp.trip j)).length - 2 := by
          omega
        omega
      | run j =>
        have hj : j = i := hstart
        subst hj
        rcases hvg with ⟨h27, h97⟩
        set c := sumGrps gs base with hc
        set c' := sumGrps (gs.erase (Grp.run j)) base with hc'
        have happ : ∀ k, c k = grpCounts (Grp.run j) k + c' k := by
          intro k; rw [hrw]; rfl
        have h0 : 1 ≤ c j := by rw [happ j]; simp [grpCounts]
        have h1 : 1 ≤ c (j + 1) := by rw [happ (j + 1)]; simp [grpCounts]
        have h2 : 1 ≤ c (j + 2) := by rw [happ (j + 2)]; simp [grpCounts]
        have hd : decRun c j = c' := by
          funext k
          rw [decRun_apply, happ k]
          by_cases hk : k = j ∨ k = j + 1 ∨ k = j + 2
          · rw [if_pos hk]
            have : grpCounts (Grp.run j) k = 1 := by simp [grpCounts, hk]
            omega
          · rw [if_neg hk]
            have : grpCounts (Grp.run j) k = 0 := by simp [grpCounts, hk]
            omega
        have hstepf : stdMeasure c' j < f := by
          unfold stdMeasure at hf ⊢
          have : sumc c = 3 + sumc c' := hsval
          omega
        have := recurseStd_le_run ⟨h27, h97, h0, h1, h2⟩ hf
        rw [hd] at this
        have hihres := ih (gs.erase (Grp.run j)) base j f herase
          (by omega) hstepf
        rw [← hc'] at hihres
        have hcast : (2 : Int) * ((gs.erase (Grp.run j)).length : Int) =
            2 * (gs.length : Int) - 2 := by
          rw [hlen']; push_cast [hlpos]; omega
        omega
    · push_neg at hex
      by_cases h34 : 34 ≤ i
      · have hempty : gs = [] := by
          cases gs with
          | nil => rfl
          | cons g gs =>
            exfalso
            have hv := (hgs g (by simp)).1
            have hs := (hgs g (by simp)).2
            cases g with
            | trip j =>
              simp only [grpValid] at hv
              simp only [grpStart] at hs
              omega
            | run j =>
              simp only [grpValid] at hv
              simp only [grpStart] at hs
              omega
        subst hempty
        simp only [sumGrps, List.foldr_nil, List.length_nil, Nat.cast_zero,
          mul_zero, sub_zero]
        exact le_of_eq (recurseStd_base h34 (by omega))
      · push_neg at h34
        have hnext : ∀ g ∈ gs, grpValid g ∧ i + 1 ≤ grpStart g := by
          intro g hg
          refine ⟨(hgs g hg).1, ?_⟩
          have := (hgs g hg).2
          have := hex g hg
          omega
        have hstepf : stdMeasure (sumGrps gs base) (i + 1) < f := by
          unfold stdMeasure at hf ⊢; omega
        exact le_trans (recurseStd_le_skip h34 hf)
          (ih gs base (i + 1) f hnext (by omega) hstepf)

/-- Scoring a bare pair: one head, nothing else, 8 − 1 = 7. -/
theorem calcFinal_pair : ∀ p < 34, calcFinal (pairCounts p) = 7 := by decide

theorem specStandardWin_le {c : Counts} (h : specStandardWin c) :
    getStandardShanten c ≤ -1 := by
  obtain ⟨p, gs, hp, hlen, hval, hdec⟩ := h
  unfold getStandardShanten stdFuel
  rw [hdec]
  have := recurseStd_le_decomp (gs.length + 34) gs (pairCounts p) 0
    (3 * sumc (sumGrps gs (pairCounts p)) + 35)
    (fun g hg => ⟨hval g hg, Nat.zero_le _⟩) (by omega)
    (by rw [← hdec]; unfold stdMeasure; omega)
  rw [calcFinal_pair p hp, hlen] at this
  rw [← hdec] at this ⊢
  omega

/-! ### Bounds for the seven-pairs and thirteen-orphans formulas -/

theorem two_mul_pairsCard_le (c : Counts) :
    2 * ((Finset.range 34).filter (fun i => 2 ≤ c i)).card ≤ sumc c := by
  have h1 : ∑ i ∈ (Finset.range 34).filter (fun i => 2 ≤ c i), c i ≤ sumc c :=
    Finset.sum_le_sum_of_subset (Finset.filter_subset _ _)
  have h2 : ((Finset.range 34).filter (fun i => 2 ≤ c i)).card • 2 ≤
      ∑ i ∈ (Finset.range 34).filter (fun i => 2 ≤ c i), c i :=
    Finset.card_nsmul_le_sum _ _ _ (fun x hx => (Finset.mem_filter.mp hx).2)
  rw [smul_eq_mul] at h2
  omega

theorem getChitoitsuShanten_ge {c : Counts} (hs : sumc c ≤ 14) :
    -1 ≤ getChitoitsuShanten c := by
  unfold getChitoitsuShanten
  have hp := two_mul_pairsCard_le c
  have hm : (0 : Int) ≤ max 0 (7 - (((Finset.range 34).filter
      (fun i => 1 ≤ c i)).card : Int)) := le_max_left _ _
  have hcard : ((Finset.range 34).filter (fun i => 2 ≤ c i)).card ≤ 7 := by omega
  push_cast
  omega

theorem getChitoitsuShanten_ge_zero {c : Counts} (hs : sumc c ≤ 13) :
    0 ≤ getChitoitsuShanten c := by
  unfold getChitoitsuShanten
  have hp := two_mul_pairsCard_le c
  have hm : (0 : Int) ≤ max 0 (7 - (((Finset.range 34).filter
      (fun i => 1 ≤ c i)).card : Int)) := le_max_left _ _
  have hcard : ((Finset.range 34).filter (fun i => 2 ≤ c i)).card ≤ 6 := by omega
  push_cast
  omega

theorem specSevenPairs_chitoi {c : Counts} (h : specSevenPairs c) :
    getChitoitsuShanten c = -1 := by
  obtain ⟨hall, hcard⟩ := h
  unfold getChitoitsuShanten
  have hpairs : (Finset.range 34).filter (fun i => 2 ≤ c i) =
      (Finset.range 34).filter (fun i => c i = 2) := by
    apply Finset.filter_congr
    intro i hi
    have := hall i (Finset.mem_range.mp hi)
    constructor <;> intro <;> omega
  have huniq : (Finset.range 34).filter (fun i => 1 ≤ c i) =
      (Finset.range 34).filter (fun i => c i = 2) := by
    apply Finset.filter_congr
    intro i hi
    have := hall i (Finset.mem_range.mp hi)
    constructor <;> intro <;> omega
  rw [hpairs, huniq, hcard]
  norm_num

theorem getKokushiShanten_def (c : Counts) : getKokushiShanten c =
    13 - (yaochuuIndices.countP (fun i => decide (0 < c i)) : Int) -
      (if yaochuuIndices.any (fun i => decide (2 ≤ c i)) then 1 else 0) := rfl

theorem getKokushiShanten_ge (c : Counts) : -1 ≤ getKokushiShanten c := by
  rw [getKokushiShanten_def]
  have hlen : yaochuuIndices.countP (fun i => decide (0 < c i)) ≤ 13 := by
    have := List.countP_le_length (p := fun i => decide (0 < c i)) (l := yaochuuIndices)
    simpa [yaochuuIndices] using this
  by_cases hpair : yaochuuIndices.any (fun i => decide (2 ≤ c i)) = true
  · rw [if_pos hpair]; push_cast; omega
  · rw [if_neg hpair]; push_cast; omega

theorem countP_pos_le_mapsum :
    ∀ (l : List Nat) (c : Counts),
      l.countP (fun i => decide (0 < c i)) ≤ (l.map c).sum := by
  intro l c
  induction l with
  | nil => simp
  | cons hd tl ih =>
    rw [List.countP_cons, List.map_cons, List.sum_cons]
    by_cases hpos : 0 < c hd
    · rw [if_pos (decide_eq_true hpos)]
      omega
    · rw [if_neg (by simpa using hpos)]
      omega

theorem countP_pos_succ_le_mapsum :
    ∀ (l : List Nat) (c : Counts), (∃ i ∈ l, 2 ≤ c i) →
      l.countP (fun i => decide (0 < c i)) + 1 ≤ (l.map c).sum := by
  intro l c
  induction l with
  | nil => rintro ⟨i, hi, _⟩; simp at hi
  | cons hd tl ih =>
    rintro ⟨i, hi, h2⟩
    rw [List.countP_cons, List.map_cons, List.sum_cons]
    rcases List.mem_cons.mp hi with rfl | htl
    · have := countP_pos_le_mapsum tl c
      rw [if_pos (decide_eq_true (by omega : 0 < c i))]
      omega
    · have := ih ⟨i, htl, h2⟩
      by_cases hpos : 0 < c hd
      · rw [if_pos (decide_eq_true hpos)]
        omega
      · rw [if_neg (by simpa using hpos)]
        omega

/-- The yaochuu indices as a finite set. -/
def yaochuuFinset : Finset Nat := yaochuuIndices.toFinset

theorem yaochuu_mapsum_le (c : Counts) : (yaochuuIndices.map c).sum ≤ sumc c := by
  have hnodup : yaochuuIndices.Nodup := by decide
  have hsub : yaochuuFinset ⊆ Finset.range 34 := by decide
  have heq : ∑ i ∈ yaochuuFinset, c i = (yaochuuIndices.map c).sum :=
    List.sum_toFinset c hnodup
  rw [← heq]
  exact Finset.sum_le_sum_of_subset hsub

theorem getKokushiShanten_ge_zero {c : Counts} (hs : sumc c ≤ 13) :
    0 ≤ getKokushiShanten c := by
  rw [getKokushiShanten_def]
  have hlen : yaochuuIndices.countP (fun i => decide (0 < c i)) ≤ 13 := by
    have := List.countP_le_length (p := fun i => decide (0 < c i)) (l := yaochuuIndices)
    simpa [yaochuuIndices] using this
  by_cases hpair : yaochuuIndices.any (fun i => decide (2 ≤ c i)) = true
  · rw [if_pos hpair]
    obtain ⟨i, hi, h2⟩ := List.any_eq_true.mp hpair
    have h2' : 2 ≤ c i := of_decide_eq_true h2
    have := countP_pos_succ_le_mapsum yaochuuIndices c ⟨i, hi, h2'⟩
    have := yaochuu_mapsum_le c
    push_cast
    omega
  · rw [if_neg hpair]
    push_cast
    omega

theorem mapsum_all_one {l : List Nat} {c : Counts} (h : ∀ i ∈ l, c i = 1) :
    (l.map c).sum = l.length := by
  induction l with
  | nil => simp
  | cons hd tl ih =>
    rw [List.map_cons, List.sum_cons, h hd (by simp),
      ih (fun i hi => h i (by simp [hi]))]
    simp only [List.length_cons]
    omega

theorem specKokushi_sum_eq (c : Counts) (h0 : ∀ i < 34, i ∉ yaochuuIndices → c i = 0) :
    sumc c = (yaochuuIndices.map c).sum := by
  have hnodup : yaochuuIndices.Nodup := by decide
  have hsub : yaochuuFinset ⊆ Finset.range 34 := by decide
  have heq : ∑ i ∈ yaochuuFinset, c i = (yaochuuIndices.map c).sum :=
    List.sum_toFinset c hnodup
  rw [← heq]
  unfold sumc
  symm
  apply Finset.sum_subset hsub
  intro x hx hnx
  exact h0 x (Finset.mem_range.mp hx) (by
    intro hmem
    exact hnx (List.mem_toFinset.mpr hmem))

theorem specKokushi_shanten {c : Counts} (h : specKokushi c) :
    getKokushiShanten c = -1 := by
  obtain ⟨hall, hzero, hsum⟩ := h
  rw [getKokushiShanten_def]
  have hcount : yaochuuIndices.countP (fun i => decide (0 < c i)) = 13 := by
    have : yaochuuIndices.countP (fun i => decide (0 < c i)) =
        yaochuuIndices.length :=
      List.countP_eq_length.mpr (fun a ha => decide_eq_true (by
        have := hall a ha; omega))
    simpa [yaochuuIndices] using this
  have hpair : yaochuuIndices.any (fun i => decide (2 ≤ c i)) = true := by
    by_contra hno
    have hle : ∀ i ∈ yaochuuIndices, c i = 1 := by
      intro i hi
      have h1 := hall i hi
      by_contra hne
      have h2 : 2 ≤ c i := by omega
      exact hno (List.any_eq_true.mpr ⟨i, hi, decide_eq_true h2⟩)
    have h13 : (yaochuuIndices.map c).sum = yaochuuIndices.length :=
      mapsum_all_one hle
    have hlistlen : yaochuuIndices.length = 13 := rfl
    have h14 : sumc c = (yaochuuIndices.map c).sum := specKokushi_sum_eq c hzero
    omega
  rw [hcount, hpair]
  norm_num

/-! ### From tile lists to frequency tables -/

theorem validTile_index {t : Tile} (h : validTile t) :
    0 ≤ tileIndex t ∧ tileIndex t < 34 := by
  obtain ⟨hnum, hhon⟩ := h
  cases t with
  | mk s v r =>
    cases s with
    | man =>
      have hv := hnum (by simp)
      dsimp only at hv
      simp only [tileIndex]
      constructor <;> omega
    | pin =>
      have hv := hnum (by simp)
      dsimp only at hv
      simp only [tileIndex]
      constructor <;> omega
    | sou =>
      have hv := hnum (by simp)
      dsimp only at hv
      simp only [tileIndex]
      constructor <;> omega
    | honour =>
      have hv := hhon rfl
      dsimp only at hv
      simp only [tileIndex]
      constructor <;> omega

theorem sumc_toFreq_aux :
    ∀ (ts : List Tile) (init : Counts), (∀ t ∈ ts, validTile t) →
      sumc (ts.foldl (fun cs t =>
        if 0 ≤ tileIndex t ∧ tileIndex t < 34 then
          Function.update cs (tileIndex t).toNat (cs (tileIndex t).toNat + 1)
        else cs) init) = sumc init + ts.length := by
  intro ts
  induction ts with
  | nil => intro init _; simp
  | cons hd tl ih =>
    intro init hval
    rw [List.foldl_cons]
    have hidx := validTile_index (hval hd (by simp))
    rw [if_pos hidx]
    have hlt : (tileIndex hd).toNat < 34 := by omega
    have hup := sumc_update_add init hlt (init (tileIndex hd).toNat + 1)
    rw [ih _ (fun t ht => hval t (by simp [ht]))]
    simp only [List.length_cons]
    omega

theorem sumc_toFreq {ts : List Tile} (h : ∀ t ∈ ts, validTile t) :
    sumc (toFreqTable ts) = ts.length := by
  unfold toFreqTable
  rw [sumc_toFreq_aux ts _ h]
  simp [sumc]

/-! ## Claim C2: `calculate_shanten` = −1 versus the winning grammars -/

/-- Shorthand tile constructors for concrete hands. -/
def mT (v : Nat) : Tile := ⟨.man, v, false⟩

/-- A pin tile. -/
def pT (v : Nat) : Tile := ⟨.pin, v, false⟩

/-- A sou tile. -/
def sT (v : Nat) : Tile := ⟨.sou, v, false⟩

/-- An honour tile. -/
def hT (v : Nat) : Tile := ⟨.honour, v, false⟩

/-- 111m 222m 333m 789m 1p 2p: `calculate_shanten` returns −1 (four
groups plus the partial run 1p2p score 8 − 8 − 1), yet no pair exists
to complete a standard hand, and the other grammars fail too. -/
def cexHandC2 : List Tile :=
  [mT 1, mT 1, mT 1, mT 2, mT 2, mT 2, mT 3, mT 3, mT 3, mT 7, mT 8, mT 9,
    pT 1, pT 2]

theorem cexC2_not_std : ¬ specStandardWin (toFreqTable cexHandC2) := by
  rintro ⟨p, gs, hp, hlen, hval, hdec⟩
  have h9 : toFreqTable cexHandC2 9 = 1 := by decide
  have h11 : toFreqTable cexHandC2 11 = 0 := by decide
  have e9 : toFreqTable cexHandC2 9 =
      pairCounts p 9 + (gs.map (fun g => grpCounts g 9)).sum := by
    rw [hdec, sumGrps_apply]
  have e11 : toFreqTable cexHandC2 11 =
      pairCounts p 11 + (gs.map (fun g => grpCounts g 11)).sum := by
    rw [hdec, sumGrps_apply]
  rw [h9] at e9
  rw [h11] at e11
  by_cases hpeq : (9 : Nat) = p
  · rw [show pairCounts p 9 = 2 from by simp [pairCounts, hpeq]] at e9
    omega
  · rw [show pairCounts p 9 = 0 from by simp [pairCounts, hpeq]] at e9
    have hex : ∃ g ∈ gs, grpCounts g 9 ≠ 0 := by
      by_contra hno
      push_neg at hno
      have hz : (gs.map (fun g => grpCounts g 9)).sum = 0 := by
        apply List.sum_eq_zero
        intro x hx
        obtain ⟨g, hg, rfl⟩ := List.mem_map.mp hx
        exact hno g hg
      omega
    obtain ⟨g, hg, hgne⟩ := hex
    have hgle : grpCounts g 9 ≤ (gs.map (fun g => grpCounts g 9)).sum :=
      List.single_le_sum (fun x _ => Nat.zero_le x) _
        (List.mem_map_of_mem _ hg)
    cases g with
    | trip j =>
      have hc : grpCounts (Grp.trip j) 9 = if 9 = j then 3 else 0 := rfl
      by_cases hj : (9 : Nat) = j
      · rw [hc, if_pos hj] at hgle
        omega
      · rw [hc, if_neg hj] at hgne
        exact hgne rfl
    | run j =>
      have hvr := hval _ hg
      have hc : grpCounts (Grp.run j) 9 =
          if 9 = j ∨ 9 = j + 1 ∨ 9 = j + 2 then 1 else 0 := rfl
      by_cases hj : (9 : Nat) = j ∨ 9 = j + 1 ∨ 9 = j + 2
      · have hj9 : j = 9 := by
          rcases hvr with ⟨h27, h97⟩
          rcases hj with h | h | h
          · omega
          · omega
          · omega
        subst hj9
        have h11c : grpCounts (Grp.run 9) 11 = 1 := by decide
        have hle11 : grpCounts (Grp.run 9) 11 ≤
            (gs.map (fun g => grpCounts g 11)).sum :=
          List.single_le_sum (fun x _ => Nat.zero_le x) _
            (List.mem_map_of_mem _ hg)
        rw [h11c] at hle11
        omega
      · rw [hc, if_neg hj] at hgne
        exact hgne rfl

theorem cexC2_not_seven : ¬ specSevenPairs (toFreqTable cexHandC2) := by
  rintro ⟨hall, _⟩
  have h0 : toFreqTable cexHandC2 0 = 3 := by decide
  have := hall 0 (by omega)
  omega

theorem cexC2_not_kokushi : ¬ specKokushi (toFreqTable cexHandC2) := by
  rintro ⟨_, hzero, _⟩
  have h1 : toFreqTable cexHandC2 1 = 3 := by decide
  have := hzero 1 (by omega) (by decide)
  omega

/-- The shorthand for `min` of the three pattern values. -/
theorem calculateShanten_def (ts : List Tile) : calculateShanten ts =
    min (min (getStandardShanten (toFreqTable ts))
      (getChitoitsuShanten (toFreqTable ts)))
      (getKokushiShanten (toFreqTable ts)) := rfl

/-- C2, counterexample: a 14-tile multiset of game tiles on which
`calculate_shanten` returns −1 although it is not a complete winning
hand under any of the three grammars. -/
theorem claim2_counterexample :
    calculateShanten cexHandC2 = -1 ∧ cexHandC2.length = 14 ∧
      (∀ t ∈ cexHandC2, validTile t) ∧
      ¬ specWinningHand (toFreqTable cexHandC2) := by
  refine ⟨by decide, by decide, by decide, ?_⟩
  rintro (h | h | h)
  · exact cexC2_not_std h
  · exact cexC2_not_seven h
  · exact cexC2_not_kokushi h

/-- C2, amended: every complete winning 14-tile hand yields −1, and no
13-tile multiset ever yields −1; but −1 does not imply a winning hand
(see the counterexample). -/
theorem claim2_amended (ts : List Tile) (hv : ∀ t ∈ ts, validTile t) :
    (ts.length = 14 → specWinningHand (toFreqTable ts) →
      calculateShanten ts = -1) ∧
    (ts.length = 13 → calculateShanten ts ≠ -1) := by
  have hsum := sumc_toFreq hv
  constructor
  · intro h14 hwin
    have hs14 : sumc (toFreqTable ts) = 14 := by omega
    have hstd_ge : (-1 : Int) ≤ getStandardShanten (toFreqTable ts) := by
      have hb := getStandardShanten_ge (c := toFreqTable ts) (by omega)
      rw [hs14] at hb
      have : stdLowerBound 14 = -1 := by decide
      omega
    have hchi_ge := getChitoitsuShanten_ge (c := toFreqTable ts) (by omega)
    have hkok_ge := getKokushiShanten_ge (toFreqTable ts)
    rw [calculateShanten_def]
    rcases hwin with hstd | h7 | hk
    · have hle := specStandardWin_le hstd
      have heq : getStandardShanten (toFreqTable ts) = -1 := le_antisymm hle hstd_ge
      rw [heq, min_eq_left hchi_ge, min_eq_left hkok_ge]
    · have heq := specSevenPairs_chitoi h7
      rw [heq, min_eq_right hstd_ge, min_eq_left hkok_ge]
    · have heq := specKokushi_shanten hk
      rw [heq, min_eq_right (le_min hstd_ge hchi_ge)]
  · intro h13 habs
    have hs13 : sumc (toFreqTable ts) = 13 := by omega
    have hstd_ge : (0 : Int) ≤ getStandardShanten (toFreqTable ts) := by
      have hb := getStandardShanten_ge (c := toFreqTable ts) (by omega)
      rw [hs13] at hb
      have : stdLowerBound 13 = 0 := by decide
      omega
    have hchi_ge := getChitoitsuShanten_ge_zero (c := toFreqTable ts) (by omega)
    have hkok_ge := getKokushiShanten_ge_zero (c := toFreqTable ts) (by omega)
    rw [calculateShanten_def] at habs
    have h0 : (0 : Int) ≤ min (min (getStandardShanten (toFreqTable ts))
        (getChitoitsuShanten (toFreqTable ts)))
        (getKokushiShanten (toFreqTable ts)) :=
      le_min (le_min hstd_ge hchi_ge) hkok_ge
    omega

/-- A seven-pairs winning hand used to instantiate the amended claim. -/
def witnessHandC2 : List Tile :=
  [mT 1, mT 1, mT 3, mT 3, mT 5, mT 5, mT 7, mT 7, mT 9, mT 9, pT 1, pT 1,
    sT 2, sT 2]

/-- A 13-tile multiset used to instantiate the amended claim. -/
def witnessHandC2thirteen : List Tile :=
  [mT 1, mT 1, mT 3, mT 3, mT 5, mT 5, mT 7, mT 7, mT 9, mT 9, pT 1, pT 1,
    sT 2]

theorem claim2_amended_witness :
    (∀ t ∈ witnessHandC2, validTile t) ∧ witnessHandC2.length = 14 ∧
      specWinningHand (toFreqTable witnessHandC2) ∧
      calculateShanten witnessHandC2 = -1 ∧
      witnessHandC2thirteen.length = 13 ∧
      calculateShanten witnessHandC2thirteen ≠ -1 := by
  have hwin : specWinningHand (toFreqTable witnessHandC2) :=
    Or.inr (Or.inl ⟨by decide, by decide⟩)
  exact ⟨by decide, by decide, hwin,
    (claim2_amended witnessHandC2 (by decide)).1 (by decide) hwin,
    by decide,
    (claim2_amended witnessHandC2thirteen (by decide)).2 (by decide)⟩

/-! ## Claim C3: the waits of a tenpai hand -/

/-- The hand 123m 456m 789m 11p 55s from the spec's example. -/
def waitsExampleHand : List Tile :=
  [mT 1, mT 2, mT 3, mT 4, mT 5, mT 6, mT 7, mT 8, mT 9, pT 1, pT 1,
    sT 5, sT 5]

/-- C3: `get_waits` returns exactly the tile types among the 34 whose
addition makes the distance −1; on 123m456m789m 11p 55s it returns
exactly 1p and 5s. -/
theorem claim3_waits :
    (∀ hand : List Tile, hand.length = 13 → calculateShanten hand = 0 →
      ∀ t : Tile, t ∈ getWaits hand ↔
        t ∈ tileTypes ∧ calculateShanten (hand ++ [t]) = -1) ∧
    getWaits waitsExampleHand = [pT 1, sT 5] ∧
    calculateShanten waitsExampleHand = 0 := by
  refine ⟨?_, by decide, by decide⟩
  intro hand _ _ t
  simp [getWaits, List.mem_filter]

theorem claim3_waits_witness :
    waitsExampleHand.length = 13 ∧ calculateShanten waitsExampleHand = 0 ∧
      (pT 1 ∈ getWaits waitsExampleHand ↔
        pT 1 ∈ tileTypes ∧ calculateShanten (waitsExampleHand ++ [pT 1]) = -1) := by
  exact ⟨by decide, by decide,
    claim3_waits.1 waitsExampleHand (by decide) (by decide) (pT 1)⟩

/-! ## Claim C4: the residual scoring of the standard search -/

/-- Spec-side: the residual scoring exactly as the claim states it —
−2 per completed group from a baseline of 8, −1 per proto-group capped
at the number of groups still needed (4 minus the groups found), and −1
for a head pair if present. -/
def specCappedFinal (g : Nat) (c : Counts) : Int :=
  let p := scanPairs c 0 34
  let t := scanTaatsu p.2 0 27
  if 0 < p.1 then
    8 - 2 * (g : Int) - min ((t : Int) + ((p.1 : Int) - 1)) (4 - (g : Int)) - 1
  else
    8 - 2 * (g : Int) - min (t : Int) (4 - (g : Int))

/-- Spec-side: the same depth-first search over group extractions as
`_recurse_standard`, but scoring leaves with the capped residual
formula (the group count is threaded instead of subtracting 2 at each
extraction). -/
def specCappedRecurse : Nat → Counts → Nat → Nat → Int
  | 0, _, _, _ => 99
  | fuel + 1, c, index, g =>
    if 34 ≤ index then specCappedFinal g c
    else if c index = 0 then specCappedRecurse fuel c (index + 1) g
    else
      let b0 : Int := 99
      let b1 : Int :=
        if 3 ≤ c index then
          min b0 (specCappedRecurse fuel (dec3 c index) index (g + 1))
        else b0
      let b2 : Int :=
        if index < 27 ∧ index % 9 < 7 ∧ 1 ≤ c index ∧
            1 ≤ c (index + 1) ∧ 1 ≤ c (index + 2) then
          min b1 (specCappedRecurse fuel (decRun c index) index (g + 1))
        else b1
      min b2 (specCappedRecurse fuel c (index + 1) g)

/-- The claim's version of the standard shanten computation. -/
def specCappedStandard (c : Counts) : Int := specCappedRecurse (stdFuel c) c 0 0

/-- Spec-side, amended: identical but with no cap on the proto-group
contribution (each pair beyond the head also counts as a proto-group). -/
def specUncappedFinal (g : Nat) (c : Counts) : Int :=
  let p := scanPairs c 0 34
  let t := scanTaatsu p.2 0 27
  if 0 < p.1 then
    8 - 2 * (g : Int) - ((t : Int) + ((p.1 : Int) - 1)) - 1
  else
    8 - 2 * (g : Int) - (t : Int)

/-- The amended search: −2 per completed group from a baseline of 8 and
an uncapped residual contribution. -/
def specUncappedRecurse : Nat → Counts → Nat → Nat → Int
  | 0, _, _, _ => 99
  | fuel + 1, c, index, g =>
    if 34 ≤ index then specUncappedFinal g c
    else if c index = 0 then specUncappedRecurse fuel c (index + 1) g
    else
      let b0 : Int := 99
      let b1 : Int :=
        if 3 ≤ c index then
          min b0 (specUncappedRecurse fuel (dec3 c index) index (g + 1))
        else b0
      let b2 : Int :=
        if index < 27 ∧ index % 9 < 7 ∧ 1 ≤ c index ∧
            1 ≤ c (index + 1) ∧ 1 ≤ c (index + 2) then
          min b1 (specUncappedRecurse fuel (decRun c index) index (g + 1))
        else b1
      min b2 (specUncappedRecurse fuel c (index + 1) g)

/-- The amended description of the standard shanten computation. -/
def specUncappedStandard (c : Counts) : Int :=
  specUncappedRecurse (stdFuel c) c 0 0

/-- 1m1m 4m4m 7m7m 1p1p 4p4p 7p7p 1s: six far-apart pairs and a single;
the code scores the five extra proto-groups without a cap. -/
def cexHandC4 : List Tile :=
  [mT 1, mT 1, mT 4, mT 4, mT 7, mT 7, pT 1, pT 1, pT 4, pT 4, pT 7, pT 7,
    sT 1]

/-- C4, counterexample: with no groups extractable, the code scores
8 − 5 − 1 = 2 while the claim's capped formula gives 8 − 4 − 1 = 3. -/
theorem claim4_counterexample :
    getStandardShanten (toFreqTable cexHandC4) = 2 ∧
    specCappedStandard (toFreqTable cexHandC4) = 3 ∧
    getStandardShanten (toFreqTable cexHandC4) ≠
      specCappedStandard (toFreqTable cexHandC4) := by
  refine ⟨by decide, by decide, ?_⟩
  intro h
  rw [show getStandardShanten (toFreqTable cexHandC4) = 2 from by decide,
    show specCappedStandard (toFreqTable cexHandC4) = 3 from by decide] at h
  exact absurd h (by decide)

theorem calcFinal_le8 (c : Counts) : calcFinal c ≤ 8 := by
  unfold calcFinal
  by_cases h : 0 < (scanPairs c 0 34).1
  · rw [if_pos h]; push_cast; omega
  · rw [if_neg h]; push_cast; omega

theorem recurseStd_le8 {c : Counts} {i f : Nat} (hf : stdMeasure c i < f) :
    recurseStd f c i ≤ 8 :=
  le_trans (recurseStd_le_calcFinal 34 (by omega) hf) (calcFinal_le8 c)

theorem specUncappedFinal_eq (g : Nat) (c : Counts) :
    specUncappedFinal g c = calcFinal c - 2 * (g : Int) := by
  simp only [specUncappedFinal, calcFinal]
  by_cases h : 0 < (scanPairs c 0 34).1
  · rw [if_pos h, if_pos h]; ring
  · rw [if_neg h, if_neg h]; ring

theorem specUncappedRecurse_unfold (f : Nat) (c : Counts) (i g : Nat) :
    specUncappedRecurse (f + 1) c i g =
      if 34 ≤ i then specUncappedFinal g c
      else if c i = 0 then specUncappedRecurse f c (i + 1) g
      else
        min
          (if i < 27 ∧ i % 9 < 7 ∧ 1 ≤ c i ∧ 1 ≤ c (i + 1) ∧ 1 ≤ c (i + 2) then
            min (if 3 ≤ c i then
                min 99 (specUncappedRecurse f (dec3 c i) i (g + 1))
              else 99)
              (specUncappedRecurse f (decRun c i) i (g + 1))
          else if 3 ≤ c i then
            min 99 (specUncappedRecurse f (dec3 c i) i (g + 1))
          else 99)
          (specUncappedRecurse f c (i + 1) g) := rfl

theorem specUncappedRecurse_eq :
    ∀ (f : Nat) (c : Counts) (i g : Nat), stdMeasure c i < f →
      specUncappedRecurse f c i g = recurseStd f c i - 2 * (g : Int) := by
  intro f
  induction f with
  | zero => intro c i g hm; omega
  | succ f ih =>
    intro c i g hm
    rw [specUncappedRecurse_unfold, recurseStd_eq]
    by_cases h34 : 34 ≤ i
    · rw [if_pos h34, if_pos h34, specUncappedFinal_eq]
    · rw [if_neg h34, if_neg h34]
      have hmskip : stdMeasure c (i + 1) < f := by unfold stdMeasure at *; omega
      have hskip := ih c (i + 1) g hmskip
      have hskip8 : recurseStd f c (i + 1) ≤ 8 := recurseStd_le8 hmskip
      by_cases hz : c i = 0
      · rw [if_pos hz, if_pos hz]
        exact hskip
      · rw [if_neg hz, if_neg hz]
        by_cases h3 : 3 ≤ c i
        · have hmt : stdMeasure (dec3 c i) i < f := by
            have := sumc_dec3 c (by omega : i < 34) h3
            unfold stdMeasure at *; omega
          have htrip := ih (dec3 c i) i (g + 1) hmt
          have htrip8 : recurseStd f (dec3 c i) i ≤ 8 := recurseStd_le8 hmt
          by_cases hr : i < 27 ∧ i % 9 < 7 ∧ 1 ≤ c i ∧ 1 ≤ c (i + 1) ∧ 1 ≤ c (i + 2)
          · have hmr : stdMeasure (decRun c i) i < f := by
              have := sumc_decRun c hr.1 hr.2.2.1 hr.2.2.2.1 hr.2.2.2.2
              unfold stdMeasure at *; omega
            have hrun := ih (decRun c i) i (g + 1) hmr
            have hrun8 : recurseStd f (decRun c i) i ≤ 8 := recurseStd_le8 hmr
            rw [if_pos hr, if_pos hr, if_pos h3, if_pos h3]
            rw [hskip, htrip, hrun]
            push_cast
            omega
          · rw [if_neg hr, if_neg hr, if_pos h3, if_pos h3]
            rw [hskip, htrip]
            push_cast
            omega
        · by_cases hr : i < 27 ∧ i % 9 < 7 ∧ 1 ≤ c i ∧ 1 ≤ c (i + 1) ∧ 1 ≤ c (i + 2)
          · have hmr : stdMeasure (decRun c i) i < f := by
              have := sumc_decRun c hr.1 hr.2.2.1 hr.2.2.2.1 hr.2.2.2.2
              unfold stdMeasure at *; omega
            have hrun := ih (decRun c i) i (g + 1) hmr
            have hrun8 : recurseStd f (decRun c i) i ≤ 8 := recurseStd_le8 hmr
            rw [if_pos hr, if_pos hr, if_neg h3, if_neg h3]
            rw [hskip, hrun]
            push_cast
            omega
          · rw [if_neg hr, if_neg hr, if_neg h3, if_neg h3]
            rw [hskip]
            push_cast
            omega

/-- C4, amended: the standard computation equals the search in which
each completed group contributes −2 to a baseline of 8 and the residual
contributes −1 per proto-group — each pair beyond the head included —
with no cap, plus −1 for a head pair. -/
theorem claim4_amended (c : Counts) :
    getStandardShanten c = specUncappedStandard c := by
  unfold getStandardShanten specUncappedStandard stdFuel
  rw [specUncappedRecurse_eq _ c 0 0 (by unfold stdMeasure; omega)]
  push_cast
  ring

/-! ## Players and melds (`player.py`)

`player.py` stores open melds as formatted strings such as
`"[Pon: 5p 5p 5p]"`; the embedding keeps the same information as
structured values (kind plus the tiles shown in the string). -/

/-- An open meld, carrying the tiles its string representation shows. -/
inductive Meld where
  | pon (t : Tile)
  | chi (a b c : Tile)
  | kan (t : Tile)
deriving DecidableEq, Repr

/-- `Player`: name, concealed hand, discard river, open melds, score
and riichi flag. -/
structure Player where
  name : String
  hand : List Tile := []
  discards : List Tile := []
  openMelds : List Meld := []
  score : Int := 25000
  isRiichi : Bool := false
deriving DecidableEq, Repr

/-- `Player.draw_tile`: append unless the tile is `None`. -/
def Player.drawTile (p : Player) (t : Option Tile) : Player :=
  match t with
  | none => p
  | some tile => { p with hand := p.hand ++ [tile] }

/-- `Player.sort_hand`. -/
def Player.sortHand (p : Player) : Player := { p with hand := sortTiles p.hand }

/-- `Player.discard_tile`: pop the tile at `index` if it is in range,
append it to the river and re-sort the hand; otherwise return `None`
and change nothing. -/
def Player.discardTile (p : Player) (index : Int) : Option Tile × Player :=
  if 0 ≤ index ∧ index < p.hand.length then
    let i := index.toNat
    let tile := p.hand.getD i (Tile.mk .man 0 false)
    (some tile,
      { p with hand := sortTiles (p.hand.eraseIdx i),
               discards := p.discards ++ [tile] })
  else
    (none, p)

/-- `Player.is_menzen`. -/
def Player.isMenzen (p : Player) : Bool := p.openMelds.length = 0

/-- `Player.can_pon`: at least two copies of the tile in hand. -/
def Player.canPon (p : Player) (tile : Tile) : Bool := 2 ≤ p.hand.count tile

/-- The removal loop of `execute_pon`/`execute_kan`: drop the first `n`
tiles equal to `tile`, keep everything else in order. -/
def removeMatches : List Tile → Tile → Nat → List Tile
  | [], _, _ => []
  | t :: ts, tile, n =>
    if t = tile ∧ 0 < n then removeMatches ts tile (n - 1)
    else t :: removeMatches ts tile n

/-- `Player.execute_pon`: remove two matching tiles, append a Pon meld. -/
def Player.executePon (p : Player) (tile : Tile) : Player :=
  { p with hand := removeMatches p.hand tile 2,
           openMelds := p.openMelds ++ [Meld.pon tile] }

/-- `Player.can_chi`: index pairs from the hand that complete a run
with the discarded tile (low, middle, high), in the order the code
builds them. -/
def Player.canChi (p : Player) (tile : Tile) : List (Nat × Nat) :=
  if tile.isHonour then []
  else
    let findIdx : Int → Option Nat := fun v =>
      p.hand.findIdx? (fun t => t.suit = tile.suit ∧ (t.value : Int) = v)
    let val : Int := tile.value
    let o1 := match findIdx (val - 2), findIdx (val - 1) with
      | some a, some b => [(a, b)]
      | _, _ => []
    let o2 := match findIdx (val - 1), findIdx (val + 1) with
      | some a, some b => [(a, b)]
      | _, _ => []
    let o3 := match findIdx (val + 1), findIdx (val + 2) with
      | some a, some b => [(a, b)]
      | _, _ => []
    o1 ++ o2 ++ o3

/-- `Player.execute_chi`: pop the two indices (larger first), form the
sorted sequence meld with the called tile. -/
def Player.executeChi (p : Player) (tile : Tile) (indices : Nat × Nat) : Player :=
  let idxA := max indices.1 indices.2
  let idxB := min indices.1 indices.2
  let t1 := p.hand.getD idxA (Tile.mk .man 0 false)
  let t2 := p.hand.getD idxB (Tile.mk .man 0 false)
  let meldTiles := sortTiles [t1, t2, tile]
  { p with hand := (p.hand.eraseIdx idxA).eraseIdx idxB,
           openMelds := p.openMelds ++
             [Meld.chi (meldTiles.getD 0 (Tile.mk .man 0 false))
               (meldTiles.getD 1 (Tile.mk .man 0 false))
               (meldTiles.getD 2 (Tile.mk .man 0 false))] }

/-- `Player.can_kan`: exactly three matching tiles in hand. -/
def Player.canKan (p : Player) (tile : Tile) : Bool := p.hand.count tile = 3

/-- `Player.execute_kan`: remove three matching tiles, append a Kan meld. -/
def Player.executeKan (p : Player) (tile : Tile) : Player :=
  { p with hand := removeMatches p.hand tile 3,
           openMelds := p.openMelds ++ [Meld.kan tile] }

/-! ## Claim C10: `Player.discard_tile` -/

/-- C10: an out-of-range index returns `None` and changes nothing; an
in-range index removes exactly the tile at that index, appends it to
the discard history, re-sorts the remaining hand and returns it. -/
theorem claim10_discard (p : Player) (index : Int) :
    (¬ (0 ≤ index ∧ index < p.hand.length) →
      p.discardTile index = (none, p)) ∧
    ((0 ≤ index ∧ index < p.hand.length) →
      ∃ t, p.hand[index.toNat]? = some t ∧
        (p.discardTile index).1 = some t ∧
        (p.discardTile index).2.discards = p.discards ++ [t] ∧
        (p.discardTile index).2.hand.Perm (p.hand.eraseIdx index.toNat) ∧
        (p.discardTile index).2.hand.Sorted tileLe ∧
        (p.discardTile index).2.name = p.name ∧
        (p.discardTile index).2.openMelds = p.openMelds ∧
        (p.discardTile index).2.score = p.score ∧
        (p.discardTile index).2.isRiichi = p.isRiichi) := by
  constructor
  · intro h
    unfold Player.discardTile
    rw [if_neg h]
  · intro h
    have hlt : index.toNat < p.hand.length := by omega
    refine ⟨p.hand[index.toNat], List.getElem?_eq_getElem hlt, ?_⟩
    unfold Player.discardTile
    rw [if_pos h]
    dsimp only
    have hget : p.hand.getD index.toNat (Tile.mk .man 0 false) =
        p.hand[index.toNat] := List.getD_eq_getElem p.hand _ hlt
    rw [hget]
    exact ⟨rfl, rfl, sortTiles_perm _, sortTiles_sorted _, rfl, rfl, rfl, rfl⟩

/-- A concrete player for instantiating C10. -/
def playerC10 : Player :=
  { name := "P", hand := [mT 3, mT 1, mT 2], discards := [pT 9] }

theorem claim10_discard_witness :
    playerC10.discardTile 5 = (none, playerC10) ∧
      (∃ t, playerC10.hand[(1 : Int).toNat]? = some t ∧
        (playerC10.discardTile 1).1 = some t ∧
        (playerC10.discardTile 1).2.discards = playerC10.discards ++ [t] ∧
        (playerC10.discardTile 1).2.hand.Perm
          (playerC10.hand.eraseIdx (1 : Int).toNat) ∧
        (playerC10.discardTile 1).2.hand.Sorted tileLe ∧
        (playerC10.discardTile 1).2.name = playerC10.name ∧
        (playerC10.discardTile 1).2.openMelds = playerC10.openMelds ∧
        (playerC10.discardTile 1).2.score = playerC10.score ∧
        (playerC10.discardTile 1).2.isRiichi = playerC10.isRiichi) := by
  exact ⟨(claim10_discard playerC10 5).1 (by decide),
    (claim10_discard playerC10 1).2 (by decide)⟩

end Riichi
